import Mathlib

/-!
Shallow embedding of `app.py` (retro vote counter): the block segmenter
`_split_into_message_blocks`, the message parser `_parse_message_block`,
and the aggregation/sort in `process_messages`, together with proofs of
the specification claims.  Python strings are modelled as Lean `String`
(lists of unicode characters); the regular expressions of the source are
compiled by hand into deterministic matching functions, and Python dicts
(which preserve insertion order and update in place) as association lists.
-/

/-- ASCII whitespace, the characters stripped by Python `str.strip()`
and matched by the regex class used in the timestamp pattern
(the source only ever meets ASCII input). -/
def pySpace (c : Char) : Bool :=
  c = ' ' || c = '\t' || c = '\n' || c = '\r' || c = '\x0b' || c = '\x0c'

/-- Python `str.strip()` on a character list. -/
def pyStripChars (cs : List Char) : List Char :=
  ((cs.dropWhile pySpace).reverse.dropWhile pySpace).reverse

/-- Python `str.strip()`. -/
def pyStrip (s : String) : String := ⟨pyStripChars s.data⟩

/-- Python `content.split('\n')` on a character list: split at every
newline, keeping empty pieces (`''.split('\n') == ['']`). -/
def splitNl : List Char → List (List Char)
  | [] => [[]]
  | c :: rest =>
      match splitNl rest with
      | [] => []
      | g :: gs => if c = '\n' then [] :: g :: gs else (c :: g) :: gs

/-- `[line.strip() for line in content.split('\n') if line.strip()]`,
the line preprocessing shared by `_split_into_message_blocks` and
`_parse_message_block` (the latter applies it to one block). -/
def pyLines (content : String) : List String :=
  ((splitNl content.data).map (fun cs => (⟨pyStripChars cs⟩ : String))).filter
    (fun l => l ≠ "")

/-- Numeric value of a digit character. -/
def digitVal (c : Char) : Nat := c.toNat - '0'.toNat

/-- Value of a nonempty digit string, as computed by Python `int` on it. -/
def digitsToNat (ds : List Char) : Nat :=
  ds.foldl (fun a c => a * 10 + digitVal c) 0

/-- The segmenter test `re.match(r'^\d+[-:]', line)`: the line begins with
one or more digits followed by a hyphen or a colon. -/
def looksTopicLine (s : String) : Bool :=
  s.data.takeWhile Char.isDigit ≠ [] &&
    ((s.data.dropWhile Char.isDigit).head? = some '-' ||
     (s.data.dropWhile Char.isDigit).head? = some ':')

/-- The segmenter test `re.match(r'^:\d+:', line)`: the line begins with
a colon, one or more digits, and a colon. -/
def looksVoteLine (s : String) : Bool :=
  s.data.head? = some ':' &&
    (s.data.drop 1).takeWhile Char.isDigit ≠ [] &&
    ((s.data.drop 1).dropWhile Char.isDigit).head? = some ':'

/-- Matching of `\d{2}\s*(AM|PM)` at the start of a list, returning the
consumed characters; the tail of the timestamp pattern after `H:` or `HH:`.
The greedy `\s*` is safe to take maximally since `A`/`P` are not spaces. -/
def timeTail (cs : List Char) : Option (List Char) :=
  match cs with
  | m1 :: m2 :: rest =>
      if m1.isDigit ∧ m2.isDigit ∧
          ((rest.dropWhile pySpace).take 2 = ['A', 'M'] ∨
           (rest.dropWhile pySpace).take 2 = ['P', 'M']) then
        some (m1 :: m2 :: (rest.takeWhile pySpace ++ (rest.dropWhile pySpace).take 2))
      else none
  | _ => none

/-- `re.match(r'(\d{1,2}:\d{2}\s*(AM|PM))', s)` returning `group(1)`, the
matched text.  The greedy `\d{1,2}` resolves deterministically: a one-digit
hour is taken exactly when the second character is `:` (then two leading
digits are impossible), else two leading digits must be followed by `:`. -/
def timestampGroup (s : String) : Option String :=
  match s.data with
  | c1 :: c2 :: cs =>
      if c1.isDigit ∧ c2 = ':' then
        (timeTail cs).map (fun t => ⟨c1 :: ':' :: t⟩)
      else if c1.isDigit ∧ c2.isDigit ∧ cs.head? = some ':' then
        (timeTail cs.tail).map (fun t => ⟨c1 :: c2 :: ':' :: t⟩)
      else none
  | _ => none

/-- The segmenter test `re.match(r'^\d{1,2}:\d{2}\s*(AM|PM)', line)`. -/
def looksTimeLine (s : String) : Bool := (timestampGroup s).isSome

/-- Python `line.isdigit()` (ASCII): nonempty and all digits. -/
def isDigitLine (s : String) : Bool :=
  s.data ≠ [] && s.data.all Char.isDigit

/-- The segmenter's new-block test on a line (the conjunction guarded by
`current_block` being nonempty in the source): none of the three regex
tests match and the line is not purely digits. -/
def isNewGroupLine (s : String) : Bool :=
  !looksTopicLine s && !looksVoteLine s && !looksTimeLine s && !isDigitLine s

/-- The `while` loop of `_split_into_message_blocks`: walk the lines,
carrying the current block; flush the final block if nonempty. -/
def splitBlocksAux : List String → List String → List (List String)
  | cur, [] => if cur = [] then [] else [cur]
  | cur, line :: rest =>
      if cur ≠ [] ∧ isNewGroupLine line then
        cur :: splitBlocksAux [line] rest
      else
        splitBlocksAux (cur ++ [line]) rest

/-- `VoteCounter._split_into_message_blocks`: blocks are joined back with
newlines, as in the source. -/
def splitIntoMessageBlocks (content : String) : List String :=
  (splitBlocksAux [] (pyLines content)).map (String.intercalate "\n")

/-- Python `int(s)` on an already-stripped string, digit tail after the
first digit: digits with single underscores allowed between digits. -/
def pyIntDigits : Nat → List Char → Option Nat
  | acc, [] => some acc
  | acc, c :: rest =>
      if c.isDigit then pyIntDigits (acc * 10 + digitVal c) rest
      else if c = '_' then
        match rest with
        | c2 :: rest2 =>
            if c2.isDigit then pyIntDigits (acc * 10 + digitVal c2) rest2 else none
        | [] => none
      else none

/-- Python `int(s)` on an unsigned already-stripped string. -/
def pyIntUnsigned (cs : List Char) : Option Nat :=
  match cs with
  | c :: rest => if c.isDigit then pyIntDigits (digitVal c) rest else none
  | [] => none

/-- Python `int(s)` (`None` models a raised `ValueError`).  The parser only
applies it to stripped lines, so surrounding whitespace need not be
modelled. -/
def pyInt (s : String) : Option Int :=
  if s.data.head? = some '-' then (pyIntUnsigned (s.data.drop 1)).map (fun n => -(Int.ofNat n))
  else if s.data.head? = some '+' then (pyIntUnsigned (s.data.drop 1)).map Int.ofNat
  else (pyIntUnsigned s.data).map Int.ofNat

/-- Python dict assignment `d[k] = v`: update in place when the key exists
(keeping its position, as Python dicts do), else append. -/
def dictInsert {α : Type} (d : List (Nat × α)) (k : Nat) (v : α) : List (Nat × α) :=
  if d.any (fun p => p.1 == k) then
    d.map (fun p => if p.1 == k then (k, v) else p)
  else d ++ [(k, v)]

/-- Python `d.get(k)` / `d[k]` lookup. -/
def dictLookup {α : Type} (d : List (Nat × α)) (k : Nat) : Option α :=
  match d.find? (fun p => p.1 == k) with
  | some p => some p.2
  | none => none

/-- Python `d.get(k, dflt)`. -/
def dictGetD {α : Type} (d : List (Nat × α)) (k : Nat) (dflt : α) : α :=
  (dictLookup d k).getD dflt

/-- The dataclass `Message`. -/
structure Message where
  author : String
  timestamp : String
  topics : List (Nat × String)
  votes : List (Nat × Int)
deriving DecidableEq, Repr

/-- The dataclass `Topic` (one report row). -/
structure Topic where
  creator_name : String
  topic_number : Nat
  subject : String
  votes : Int
deriving DecidableEq, Repr

/-- `re.match(r'^(\d+)-(.+)$', line)` with `int(group(1))` and
`group(2).strip()`: a topic declaration line (the lines scanned contain no
newline, so `(.+)$` just demands a nonempty remainder). -/
def topicMatch (s : String) : Option (Nat × String) :=
  if s.data.takeWhile Char.isDigit ≠ [] ∧
      (s.data.dropWhile Char.isDigit).head? = some '-' ∧
      (s.data.dropWhile Char.isDigit).tail ≠ [] then
    some (digitsToNat (s.data.takeWhile Char.isDigit),
      ⟨pyStripChars (s.data.dropWhile Char.isDigit).tail⟩)
  else none

/-- `re.match(r'^:(\d+):$', line)` with `int(group(1))`: a vote marker
(anchored: the whole line is colon, digits, colon). -/
def voteMatch (s : String) : Option Nat :=
  if s.data.head? = some ':' ∧
      (s.data.drop 1).takeWhile Char.isDigit ≠ [] ∧
      (s.data.drop 1).dropWhile Char.isDigit = [':'] then
    some (digitsToNat ((s.data.drop 1).takeWhile Char.isDigit))
  else none

/-- The scanning loop of `_parse_message_block` from index 2: check each
line for a topic declaration and for a vote marker; a vote marker consumes
the next line as its count when that line parses as an integer, otherwise
it is left to be re-evaluated (a warning is logged in the source). -/
def scanLines : List String → List (Nat × String) → List (Nat × Int) →
    List (Nat × String) × List (Nat × Int)
  | [], topics, votes => (topics, votes)
  | [l], topics, votes =>
      (match topicMatch l with
       | some (n, subj) => dictInsert topics n subj
       | none => topics,
       votes)
  | l :: next :: rest, topics, votes =>
      let topics2 := match topicMatch l with
        | some (n, subj) => dictInsert topics n subj
        | none => topics
      match voteMatch l with
      | some n =>
          match pyInt next with
          | some c => scanLines rest topics2 (dictInsert votes n c)
          | none => scanLines (next :: rest) topics2 votes
      | none => scanLines (next :: rest) topics2 votes

/-- First timestamp match in a list of lines (the recovery loop body). -/
def tsScanList : List String → Option String
  | [] => none
  | l :: rest =>
      match timestampGroup l with
      | some t => some t
      | none => tsScanList rest

/-- The timestamp selection of `_parse_message_block`: match line 1;
on failure scan lines `range(1, min(4, len(lines)))` — exactly the
elements of `(lines.drop 1).take 3` — and fall back to `"Unknown"`. -/
def pickTimestamp (lines : List String) : String :=
  match timestampGroup (lines.getD 1 "") with
  | some t => t
  | none =>
      match tsScanList ((lines.drop 1).take 3) with
      | some t => t
      | none => "Unknown"

/-- `VoteCounter._parse_message_block`: re-split and strip the block,
require at least two lines, take the author, pick the timestamp, and scan
the rest for topics and votes.  `none` models the `return None` skip. -/
def parseMessageBlock (block : String) : Option Message :=
  match pyLines block with
  | l0 :: l1 :: rest =>
      let tv := scanLines rest [] []
      some ⟨l0, pickTimestamp (l0 :: l1 :: rest), tv.1, tv.2⟩
  | _ => none

/-- `VoteCounter.parse_file` after reading: parse every block, keeping the
parses that succeed. -/
def parseContent (content : String) : List Message :=
  (splitIntoMessageBlocks content).filterMap parseMessageBlock

/-- The inner loop of `process_messages` for one message: one `Topic` row
per entry of the topics dict, votes defaulting to 0. -/
def rowsOfMessage (m : Message) : List Topic :=
  m.topics.map (fun p => ⟨m.author, p.1, p.2, dictGetD m.votes p.1 0⟩)

/-- `all_topics` before sorting: rows of all messages in order. -/
def allTopicsOf (msgs : List Message) : List Topic :=
  (msgs.map rowsOfMessage).flatten

/-- The sort key comparison of `process_messages`: Python tuple order on
`(-votes, creator_name)`. -/
def topicKeyLE (a b : Topic) : Bool :=
  decide (b.votes < a.votes ∨ (a.votes = b.votes ∧ a.creator_name ≤ b.creator_name))

/-- `VoteCounter.process_messages`: build all rows, then stable-sort by
`(-votes, creator_name)` (Python `list.sort` is a stable sort and a stable
sort's output is uniquely determined, so `mergeSort` models it exactly). -/
def processMessages (msgs : List Message) : List Topic :=
  (allTopicsOf msgs).mergeSort topicKeyLE

/-- The timestamp recovery policy as the specification words it: try the
lines with indices in `range(1, min(4, len(lines)))` in order, take the
first timestamp match, and fall back to the sentinel `"Unknown"`. -/
def lenientTimestampSpec (lines : List String) : String :=
  match ((List.range' 1 (min 4 lines.length - 1)).filterMap
      (fun j => timestampGroup (lines.getD j ""))).head? with
  | some t => t
  | none => "Unknown"

/-- The effect of one scanned line on the topics dict (the topic branch of
the scanning loop). -/
def topicStep (t : List (Nat × String)) (l : String) : List (Nat × String) :=
  match topicMatch l with
  | some (n, subj) => dictInsert t n subj
  | none => t

/-- The subject of the last topic declaration for number `n` among the
scanned lines, if any. -/
def lastTopicSubject (n : Nat) (ls : List String) : Option String :=
  ls.foldl (fun acc l =>
    match topicMatch l with
    | some p => if p.1 == n then some p.2 else acc
    | none => acc) none

/-- The row built from one topics-dict entry in `process_messages`. -/
def rowOf (m : Message) (p : Nat × String) : Topic :=
  ⟨m.author, p.1, p.2, dictGetD m.votes p.1 0⟩

/-- Pattern (a) of the claim, as the claim words it: `<digits>-<text>` —
one or more digits, a hyphen, then the rest of the line. -/
def specTopicDecl (s : String) : Prop :=
  ∃ ds rest, s.data = ds ++ '-' :: rest ∧ ds ≠ [] ∧ ∀ d ∈ ds, d.isDigit = true

/-- Pattern (a) as the code actually tests it (`^\d+[-:]`): one or more
digits followed by a hyphen or a colon. -/
def amendedTopicDecl (s : String) : Prop :=
  ∃ ds c rest, s.data = ds ++ c :: rest ∧ ds ≠ [] ∧
    (∀ d ∈ ds, d.isDigit = true) ∧ (c = '-' ∨ c = ':')

/-- Pattern (b) of the claim: the line starts with `:<digits>:`. -/
def specVoteMarker (s : String) : Prop :=
  ∃ ds rest, s.data = ':' :: (ds ++ ':' :: rest) ∧ ds ≠ [] ∧
    ∀ d ∈ ds, d.isDigit = true

/-- Pattern (c) of the claim: the line starts with
`<1-2 digits>:<2 digits><optional whitespace>(AM|PM)`. -/
def specTimePat (s : String) : Prop :=
  ∃ hh mm w ap rest, s.data = hh ++ ':' :: (mm ++ (w ++ (ap ++ rest))) ∧
    (hh.length = 1 ∨ hh.length = 2) ∧ (∀ d ∈ hh, d.isDigit = true) ∧
    mm.length = 2 ∧ (∀ d ∈ mm, d.isDigit = true) ∧
    (∀ c ∈ w, pySpace c = true) ∧ (ap = ['A', 'M'] ∨ ap = ['P', 'M'])

/-- The new-group criterion exactly as claim C2 states it: none of the
three claimed patterns matches and the line is not purely digits. -/
def specNewGroupLine (s : String) : Prop :=
  ¬specTopicDecl s ∧ ¬specVoteMarker s ∧ ¬specTimePat s ∧ isDigitLine s = false

/-- The amended new-group criterion: as claim C2, but with pattern (a)
replaced by what the code's regex `^\d+[-:]` matches. -/
def amendedNewGroupLine (s : String) : Prop :=
  ¬amendedTopicDecl s ∧ ¬specVoteMarker s ∧ ¬specTimePat s ∧ isDigitLine s = false

/-! ## Helper lemmas -/

theorem takeWhile_append_all {α : Type} {p : α → Bool} :
    ∀ {ds : List α} (l2 : List α), (∀ a ∈ ds, p a = true) →
      (ds ++ l2).takeWhile p = ds ++ l2.takeWhile p
  | [], l2, _ => by simp
  | a :: t, l2, h => by
    have ha : p a = true := h a (List.mem_cons_self a t)
    simp only [List.cons_append, List.takeWhile_cons_of_pos ha]
    rw [takeWhile_append_all l2 (fun x hx => h x (List.mem_cons_of_mem a hx))]

theorem dropWhile_append_all {α : Type} {p : α → Bool} :
    ∀ {ds : List α} (l2 : List α), (∀ a ∈ ds, p a = true) →
      (ds ++ l2).dropWhile p = l2.dropWhile p
  | [], l2, _ => by simp
  | a :: t, l2, h => by
    have ha : p a = true := h a (List.mem_cons_self a t)
    simp only [List.cons_append, List.dropWhile_cons_of_pos ha]
    exact dropWhile_append_all l2 (fun x hx => h x (List.mem_cons_of_mem a hx))

theorem mem_of_takeWhile {α : Type} {p : α → Bool} :
    ∀ {l : List α} {a : α}, a ∈ l.takeWhile p → p a = true
  | [], a, h => absurd h (List.not_mem_nil a)
  | x :: t, a, h => by
    by_cases hx : p x
    · rw [List.takeWhile_cons_of_pos hx] at h
      rcases List.mem_cons.mp h with rfl | h2
      · exact hx
      · exact mem_of_takeWhile h2
    · rw [List.takeWhile_cons_of_neg hx] at h
      exact absurd h (List.not_mem_nil a)

/-- A line matching the vote-marker regexp begins with a colon, hence cannot
match the topic regexp (which begins with a digit). -/
theorem voteMatch_topicMatch_none {s : String} {n : Nat}
    (h : voteMatch s = some n) : topicMatch s = none := by
  unfold voteMatch at h
  split at h
  · rename_i hc
    obtain ⟨h1, -, -⟩ := hc
    unfold topicMatch
    refine if_neg ?_
    rintro ⟨ht, -, -⟩
    rcases hd : s.data with _ | ⟨c0, rest⟩
    · rw [hd] at ht; simp at ht
    · rw [hd] at h1
      simp only [List.head?_cons, Option.some.injEq] at h1
      subst h1
      rw [hd] at ht
      rw [List.takeWhile_cons_of_neg (by decide)] at ht
      exact ht rfl
  · exact absurd h (by simp)

theorem pyIntDigits_cons (acc : Nat) (c : Char) (rest : List Char) :
    pyIntDigits acc (c :: rest) =
      if c.isDigit then pyIntDigits (acc * 10 + digitVal c) rest
      else if c = '_' then
        match rest with
        | c2 :: rest2 =>
            if c2.isDigit then pyIntDigits (acc * 10 + digitVal c2) rest2 else none
        | [] => none
      else none := by
  rw [pyIntDigits.eq_def]

theorem pyIntUnsigned_cons (c : Char) (rest : List Char) :
    pyIntUnsigned (c :: rest) =
      if c.isDigit then pyIntDigits (digitVal c) rest else none := by
  rw [pyIntUnsigned.eq_def]

/-- Every character consumed by a successful `pyIntDigits` run is a digit
or an underscore. -/
theorem pyIntDigits_chars :
    ∀ (cs : List Char) (acc n : Nat), pyIntDigits acc cs = some n →
      ∀ x ∈ cs, x.isDigit = true ∨ x = '_' := by
  intro cs
  induction cs with
  | nil => intro acc n h x hx; exact absurd hx (List.not_mem_nil x)
  | cons c rest ih =>
    intro acc n h x hx
    rw [pyIntDigits_cons] at h
    by_cases hc : c.isDigit
    · rw [if_pos hc] at h
      rcases List.mem_cons.mp hx with rfl | hx2
      · exact Or.inl hc
      · exact ih _ n h x hx2
    · rw [if_neg hc] at h
      by_cases hu : c = '_'
      · rw [if_pos hu] at h
        rcases hr : rest with _ | ⟨c2, rest2⟩ <;> rw [hr] at h <;> simp only at h
        · exact absurd h (by simp)
        · by_cases hc2 : c2.isDigit
          · rw [if_pos hc2] at h
            have h2 : pyIntDigits acc rest = some n := by
              rw [hr, pyIntDigits_cons, if_pos hc2]; exact h
            rcases List.mem_cons.mp hx with rfl | hx2
            · exact Or.inr hu
            · exact ih acc n h2 x hx2
          · rw [if_neg hc2] at h; exact absurd h (by simp)
      · rw [if_neg hu] at h; exact absurd h (by simp)

/-- A line parsed by Python `int` contains no hyphen after its first
character, hence cannot match the topic regexp. -/
theorem pyInt_topicMatch_none {s : String} {c : Int}
    (h : pyInt s = some c) : topicMatch s = none := by
  unfold topicMatch
  refine if_neg ?_
  rintro ⟨ht, hm, -⟩
  rcases hd : s.data with _ | ⟨c0, rest⟩
  · rw [hd] at ht; simp at ht
  · rw [hd] at ht hm
    have hc0 : c0.isDigit = true := by
      by_contra hc0
      rw [List.takeWhile_cons_of_neg (by simpa using hc0)] at ht
      exact ht rfl
    unfold pyInt at h
    rw [hd] at h
    have hne1 : ¬((c0 :: rest).head? = some '-') := by
      simp only [List.head?_cons, Option.some.injEq]
      intro heq; rw [heq] at hc0; simp at hc0
    have hne2 : ¬((c0 :: rest).head? = some '+') := by
      simp only [List.head?_cons, Option.some.injEq]
      intro heq; rw [heq] at hc0; simp at hc0
    rw [if_neg hne1, if_neg hne2, pyIntUnsigned_cons, if_pos hc0] at h
    obtain ⟨n, hn, -⟩ := Option.map_eq_some'.mp h
    rw [List.dropWhile_cons_of_pos hc0] at hm
    have hmem : '-' ∈ rest :=
      (List.dropWhile_sublist Char.isDigit).mem
        (List.mem_of_mem_head? (Option.mem_def.mpr hm))
    rcases pyIntDigits_chars rest _ n hn '-' hmem with hd1 | hd1 <;> simp at hd1

theorem dictLookup_cons {α : Type} (p : Nat × α) (d : List (Nat × α)) (n : Nat) :
    dictLookup (p :: d) n = if p.1 == n then some p.2 else dictLookup d n := by
  unfold dictLookup
  rw [List.find?_cons]
  by_cases h : p.1 == n
  · simp [h]
  · simp [h]

theorem dictInsert_cons_ne {α : Type} (p : Nat × α) (d : List (Nat × α)) (k : Nat) (v : α)
    (h : (p.1 == k) = false) : dictInsert (p :: d) k v = p :: dictInsert d k v := by
  simp only [dictInsert, List.any_cons, h, Bool.false_or, List.map_cons, List.cons_append]
  by_cases hany : (d.any (fun q => q.1 == k)) = true
  · simp only [if_pos hany]
    simp [h]
  · simp only [if_neg hany]

theorem dictLookup_dictInsert_self {α : Type} (d : List (Nat × α)) (k : Nat) (v : α) :
    dictLookup (dictInsert d k v) k = some v := by
  induction d with
  | nil => simp [dictInsert, dictLookup, List.find?]
  | cons p d ih =>
    by_cases hp : (p.1 == k) = true
    · have hany : ((p :: d).any (fun q => q.1 == k)) = true := by
        simp [List.any_cons, hp]
      simp only [dictInsert, hany, if_pos, List.map_cons, if_pos hp]
      rw [dictLookup_cons]
      simp
    · rw [dictInsert_cons_ne p d k v (by simpa using hp), dictLookup_cons]
      rw [if_neg (by simpa using hp)]
      exact ih

theorem dictLookup_map_update {α : Type} (t : List (Nat × α)) (k : Nat) (v : α)
    {n : Nat} (hn : n ≠ k) :
    dictLookup (t.map (fun p => if p.1 == k then (k, v) else p)) n = dictLookup t n := by
  induction t with
  | nil => rfl
  | cons q t ih =>
    by_cases hq : (q.1 == k) = true
    · have hqk : q.1 = k := by simpa using hq
      rw [List.map_cons, if_pos hq, dictLookup_cons, dictLookup_cons]
      have h1 : ¬(((k, v).1 == n) = true) := by
        simp only [beq_iff_eq]
        exact fun h => hn h.symm
      have h2 : ¬((q.1 == n) = true) := by
        simp only [beq_iff_eq, hqk]
        exact fun h => hn h.symm
      rw [if_neg h1, if_neg h2]
      exact ih
    · rw [List.map_cons, if_neg hq, dictLookup_cons, dictLookup_cons]
      by_cases hqn : (q.1 == n) = true
      · rw [if_pos hqn, if_pos hqn]
      · rw [if_neg hqn, if_neg hqn]
        exact ih

theorem dictLookup_append_single {α : Type} (d : List (Nat × α)) (k : Nat) (v : α)
    {n : Nat} (hn : n ≠ k) :
    dictLookup (d ++ [(k, v)]) n = dictLookup d n := by
  induction d with
  | nil =>
    simp only [List.nil_append]
    rw [dictLookup_cons, if_neg (by simp only [beq_iff_eq]; exact fun h => hn h.symm)]
  | cons q t ih =>
    rw [List.cons_append, dictLookup_cons, dictLookup_cons]
    by_cases hqn : (q.1 == n) = true
    · rw [if_pos hqn, if_pos hqn]
    · rw [if_neg hqn, if_neg hqn]
      exact ih

theorem dictLookup_dictInsert_other {α : Type} (d : List (Nat × α)) (k : Nat) (v : α)
    {n : Nat} (hn : n ≠ k) : dictLookup (dictInsert d k v) n = dictLookup d n := by
  unfold dictInsert
  by_cases hany : (d.any (fun p => p.1 == k)) = true
  · rw [if_pos hany]
    exact dictLookup_map_update d k v hn
  · rw [if_neg hany]
    exact dictLookup_append_single d k v hn

theorem scanLines_nil (topics : List (Nat × String)) (votes : List (Nat × Int)) :
    scanLines [] topics votes = (topics, votes) := rfl

theorem scanLines_single_no_topic {l : String} (h : topicMatch l = none)
    (topics : List (Nat × String)) (votes : List (Nat × Int)) :
    scanLines [l] topics votes = (topics, votes) := by
  rw [scanLines.eq_def]
  simp only [h]

theorem scanLines_vote_consumes {l next : String} {n : Nat} {c : Int}
    (hv : voteMatch l = some n) (hc : pyInt next = some c)
    (rest : List String) (topics : List (Nat × String)) (votes : List (Nat × Int)) :
    scanLines (l :: next :: rest) topics votes =
      scanLines rest topics (dictInsert votes n c) := by
  have ht := voteMatch_topicMatch_none hv
  rw [scanLines.eq_def]
  simp only [ht, hv, hc]

theorem scanLines_vote_skips {l next : String} {n : Nat}
    (hv : voteMatch l = some n) (hc : pyInt next = none)
    (rest : List String) (topics : List (Nat × String)) (votes : List (Nat × Int)) :
    scanLines (l :: next :: rest) topics votes =
      scanLines (next :: rest) topics votes := by
  have ht := voteMatch_topicMatch_none hv
  rw [scanLines.eq_def]
  simp only [ht, hv, hc]

theorem scanLines_cons_no_vote {l : String} (hv : voteMatch l = none)
    (next : String) (rest : List String)
    (topics : List (Nat × String)) (votes : List (Nat × Int)) :
    scanLines (l :: next :: rest) topics votes =
      scanLines (next :: rest)
        (match topicMatch l with
         | some (n, subj) => dictInsert topics n subj
         | none => topics) votes := by
  rw [scanLines.eq_def]
  simp only [hv]

/-! ## Claims -/

/-- C4: in the scanning loop, a line matching the vote-marker regexp with a
following line that parses as an integer records `votes[n] = integer` and
advances the scan past the count line; when the following line does not
parse as an integer, no vote entry is recorded for the marker and the
following line is re-evaluated as an ordinary line on the next iteration. -/
theorem c4_vote_marker_handling (l next : String) (rest : List String)
    (topics : List (Nat × String)) (votes : List (Nat × Int)) (n : Nat)
    (h : voteMatch l = some n) :
    (∀ c : Int, pyInt next = some c →
        scanLines (l :: next :: rest) topics votes =
          scanLines rest topics (dictInsert votes n c) ∧
        dictLookup (dictInsert votes n c) n = some c) ∧
    (pyInt next = none →
        scanLines (l :: next :: rest) topics votes =
          scanLines (next :: rest) topics votes) := by
  constructor
  · intro c hc
    exact ⟨scanLines_vote_consumes h hc rest topics votes,
      dictLookup_dictInsert_self votes n c⟩
  · intro hc
    exact scanLines_vote_skips h hc rest topics votes

theorem c4_vote_marker_handling_witness :
    (scanLines [":3:", "12"] [] [] = scanLines [] [] (dictInsert [] 3 12) ∧
      dictLookup (dictInsert ([] : List (Nat × Int)) 3 12) 3 = some 12) ∧
    scanLines [":3:", "x2", "1-T"] [] [] = scanLines ["x2", "1-T"] [] [] :=
  ⟨(c4_vote_marker_handling ":3:" "12" [] [] [] 3 rfl).1 12 rfl,
   (c4_vote_marker_handling ":3:" "x2" ["1-T"] [] [] 3 rfl).2 rfl⟩

/-- C9: a vote marker on the last line of a block (no following line) adds
no entry to the votes map, and a block of at least two lines still parses
to a Message, so the dangling marker is not fatal. -/
theorem c9_trailing_vote_marker (l : String) (n : Nat) (h : voteMatch l = some n)
    (topics : List (Nat × String)) (votes : List (Nat × Int)) :
    scanLines [l] topics votes = (topics, votes) ∧
    ∀ block : String, 2 ≤ (pyLines block).length →
      (parseMessageBlock block).isSome = true := by
  constructor
  · exact scanLines_single_no_topic (voteMatch_topicMatch_none h) topics votes
  · intro block hlen
    unfold parseMessageBlock
    rcases hb : pyLines block with _ | ⟨l0, _ | ⟨l1, rest⟩⟩
    · rw [hb] at hlen; simp at hlen
    · rw [hb] at hlen; simp at hlen
    · simp

theorem c9_trailing_vote_marker_witness :
    scanLines [":3:"] [] [] = ([], []) ∧
    (parseMessageBlock "A\nB\n:3:").isSome = true :=
  ⟨(c9_trailing_vote_marker ":3:" 3 rfl [] []).1,
   (c9_trailing_vote_marker ":3:" 3 rfl [] []).2 "A\nB\n:3:" (by decide)⟩

/-- C7: the parser skips (returns no Message for) exactly the blocks with
fewer than two non-empty stripped lines; every block with at least two
such lines produces a Message. -/
theorem c7_minimum_block_size (block : String) :
    parseMessageBlock block = none ↔ (pyLines block).length < 2 := by
  unfold parseMessageBlock
  rcases hb : pyLines block with _ | ⟨l0, _ | ⟨l1, rest⟩⟩ <;> simp

/-- C5: the six-line example block parses to the expected Message, and
aggregating that message yields exactly the two expected rows in order. -/
theorem c5_example_end_to_end :
    parseMessageBlock "Alice\n9:30 AM\n1-Pizza Friday\n:1:\n12\n2-Remote Work" =
      some ⟨"Alice", "9:30 AM", [(1, "Pizza Friday"), (2, "Remote Work")], [(1, 12)]⟩ ∧
    processMessages [⟨"Alice", "9:30 AM", [(1, "Pizza Friday"), (2, "Remote Work")], [(1, 12)]⟩] =
      [⟨"Alice", 1, "Pizza Friday", 12⟩, ⟨"Alice", 2, "Remote Work", 0⟩] := by
  constructor
  · rfl
  · show (allTopicsOf _).mergeSort topicKeyLE = _
    rw [show allTopicsOf [⟨"Alice", "9:30 AM", [(1, "Pizza Friday"), (2, "Remote Work")], [(1, 12)]⟩] =
        [⟨"Alice", 1, "Pizza Friday", 12⟩, ⟨"Alice", 2, "Remote Work", 0⟩] from rfl]
    exact List.mergeSort_of_sorted (by decide)

theorem tsScanList_eq_head : ∀ ls : List String,
    tsScanList ls = (ls.filterMap timestampGroup).head?
  | [] => rfl
  | l :: rest => by
    unfold tsScanList
    rcases hg : timestampGroup l with _ | t
    · rw [List.filterMap_cons_none hg]
      exact tsScanList_eq_head rest
    · rw [List.filterMap_cons_some hg]
      simp

theorem timestampCandidates (l0 l1 : String) (rest : List String) :
    (List.range' 1 (min 4 (l0 :: l1 :: rest).length - 1)).map
      (fun j => (l0 :: l1 :: rest).getD j "") = (l1 :: rest).take 3 := by
  rcases rest with _ | ⟨a, _ | ⟨b, t⟩⟩
  · simp [List.range']
  · simp [List.range']
  · have h4 : min 4 (l0 :: l1 :: a :: b :: t).length - 1 = 3 := by
      simp only [List.length_cons]
      omega
    rw [h4]
    simp [List.range']

theorem pickTimestamp_eq_lenient (l0 l1 : String) (rest : List String) :
    pickTimestamp (l0 :: l1 :: rest) = lenientTimestampSpec (l0 :: l1 :: rest) := by
  unfold pickTimestamp lenientTimestampSpec
  have hc : (List.range' 1 (min 4 (l0 :: l1 :: rest).length - 1)).filterMap
      (fun j => timestampGroup ((l0 :: l1 :: rest).getD j "")) =
      ((l1 :: rest).take 3).filterMap timestampGroup := by
    rw [← timestampCandidates l0 l1 rest, List.filterMap_map]
    rfl
  rw [hc]
  simp only [List.getD_cons_succ, List.getD_cons_zero]
  rcases hg : timestampGroup l1 with _ | t
  · rw [tsScanList_eq_head]
    simp only [List.drop_succ_cons, List.drop_zero]
  · rw [show (l1 :: rest).take 3 = l1 :: rest.take 2 from rfl]
    rw [List.filterMap_cons_some hg]
    simp

/-- C6: for every block of at least two lines the parser returns a Message
whose timestamp follows the lenient policy — the first timestamp match
among the lines with indices in `range(1, min(4, len(lines)))`, and the
sentinel `"Unknown"` when none matches; the block is never skipped for a
timestamp failure. -/
theorem c6_lenient_timestamp (block : String) (h : 2 ≤ (pyLines block).length) :
    (∃ m, parseMessageBlock block = some m ∧
        m.timestamp = lenientTimestampSpec (pyLines block)) ∧
    pickTimestamp (pyLines block) = lenientTimestampSpec (pyLines block) := by
  rcases hb : pyLines block with _ | ⟨l0, _ | ⟨l1, rest⟩⟩
  · rw [hb] at h; simp at h
  · rw [hb] at h; simp at h
  · refine ⟨⟨⟨l0, pickTimestamp (l0 :: l1 :: rest),
        (scanLines rest [] []).1, (scanLines rest [] []).2⟩, ?_, ?_⟩, ?_⟩
    · unfold parseMessageBlock
      rw [hb]
    · exact pickTimestamp_eq_lenient l0 l1 rest
    · exact pickTimestamp_eq_lenient l0 l1 rest

theorem c6_lenient_timestamp_witness :
    (∃ m, parseMessageBlock "A\nB" = some m ∧
        m.timestamp = lenientTimestampSpec (pyLines "A\nB")) ∧
    pickTimestamp (pyLines "A\nB") = lenientTimestampSpec (pyLines "A\nB") :=
  c6_lenient_timestamp "A\nB" (by decide)

theorem splitBlocksAux_flatten : ∀ (ls cur : List String),
    (splitBlocksAux cur ls).flatten = cur ++ ls
  | [], cur => by
    unfold splitBlocksAux
    by_cases hc : cur = [] <;> simp [hc]
  | line :: rest, cur => by
    unfold splitBlocksAux
    by_cases hc : cur ≠ [] ∧ isNewGroupLine line
    · rw [if_pos hc]
      simp only [List.flatten_cons]
      rw [splitBlocksAux_flatten rest [line]]
      simp
    · rw [if_neg hc]
      rw [splitBlocksAux_flatten rest (cur ++ [line])]
      simp

theorem splitBlocksAux_no_nil : ∀ (ls cur : List String), cur ≠ [] →
    ∀ g ∈ splitBlocksAux cur ls, g ≠ []
  | [], cur, hcur => by
    unfold splitBlocksAux
    rw [if_neg hcur]
    intro g hg
    rw [List.mem_singleton] at hg
    rw [hg]
    exact hcur
  | line :: rest, cur, hcur => by
    unfold splitBlocksAux
    by_cases hc : cur ≠ [] ∧ isNewGroupLine line
    · rw [if_pos hc]
      intro g hg
      rcases List.mem_cons.mp hg with rfl | hg2
      · exact hcur
      · exact splitBlocksAux_no_nil rest [line] (by simp) g hg2
    · rw [if_neg hc]
      exact splitBlocksAux_no_nil rest (cur ++ [line]) (by simp)

theorem splitBlocksAux_nil_start (line : String) (rest : List String) :
    splitBlocksAux [] (line :: rest) = splitBlocksAux [line] rest := by
  rw [splitBlocksAux.eq_def]
  simp

/-- C8: the segmenter emits only non-empty groups, no blank line appears in
any group, and the groups concatenate, in order, to exactly the stripped
non-blank lines of the input; the emitted blocks are these groups joined
with newlines. -/
theorem c8_segmentation_partition (content : String) :
    (splitBlocksAux [] (pyLines content)).flatten = pyLines content ∧
    (∀ g ∈ splitBlocksAux [] (pyLines content), g ≠ []) ∧
    (∀ g ∈ splitBlocksAux [] (pyLines content), ∀ l ∈ g, l ≠ "") ∧
    splitIntoMessageBlocks content =
      (splitBlocksAux [] (pyLines content)).map (String.intercalate "\n") := by
  have hflat := splitBlocksAux_flatten (pyLines content) []
  rw [List.nil_append] at hflat
  refine ⟨hflat, ?_, ?_, rfl⟩
  · rcases hp : pyLines content with _ | ⟨l, rest⟩
    · intro g hg
      simp [splitBlocksAux] at hg
    · rw [splitBlocksAux_nil_start]
      exact splitBlocksAux_no_nil rest [l] (by simp)
  · intro g hg l hl
    have hmem : l ∈ (splitBlocksAux [] (pyLines content)).flatten :=
      List.mem_flatten.mpr ⟨g, hg, hl⟩
    rw [hflat] at hmem
    have := List.of_mem_filter hmem
    simpa using this

/-- The cons-cons step of the scanning loop, written with `topicStep`. -/
theorem scanLines_cons_cons (l next : String) (rest : List String)
    (t : List (Nat × String)) (v : List (Nat × Int)) :
    scanLines (l :: next :: rest) t v =
      match voteMatch l with
      | some n =>
          (match pyInt next with
           | some c => scanLines rest (topicStep t l) (dictInsert v n c)
           | none => scanLines (next :: rest) (topicStep t l) v)
      | none => scanLines (next :: rest) (topicStep t l) v := rfl

/-- The singleton step of the scanning loop. -/
theorem scanLines_single (l : String) (t : List (Nat × String))
    (v : List (Nat × Int)) :
    scanLines [l] t v = (topicStep t l, v) := rfl

/-- The topics dict built by the scanning loop is a plain left fold of the
topic branch: the lines consumed as vote counts never match the topic
regexp, so skipping them does not change the fold. -/
theorem scanLines_topics_foldl : ∀ (ls : List String) (t : List (Nat × String))
    (v : List (Nat × Int)), (scanLines ls t v).1 = ls.foldl topicStep t
  | [], t, v => rfl
  | [l], t, v => rfl
  | l :: next :: rest, t, v => by
    rw [scanLines_cons_cons]
    rcases hv : voteMatch l with _ | n
    · rw [scanLines_topics_foldl (next :: rest) (topicStep t l) v]
      simp only [List.foldl_cons]
    · rcases hc : pyInt next with _ | c
      · rw [scanLines_topics_foldl (next :: rest) (topicStep t l) v]
        simp only [List.foldl_cons]
      · rw [scanLines_topics_foldl rest (topicStep t l) (dictInsert v n c)]
        have htn : topicStep (topicStep t l) next = topicStep t l := by
          unfold topicStep
          rw [pyInt_topicMatch_none hc]
        simp only [List.foldl_cons, htn]

theorem dictLookup_topicStep (t : List (Nat × String)) (l : String) (n : Nat) :
    dictLookup (topicStep t l) n =
      (match topicMatch l with
       | some p => if p.1 == n then some p.2 else dictLookup t n
       | none => dictLookup t n) := by
  unfold topicStep
  rcases hm : topicMatch l with _ | ⟨k, subj⟩
  · rfl
  · simp only
    by_cases hk : (k == n) = true
    · have : k = n := by simpa using hk
      rw [if_pos hk, this, dictLookup_dictInsert_self]
    · have : n ≠ k := by simp at hk; exact fun h => hk h.symm
      rw [if_neg hk, dictLookup_dictInsert_other t k subj this]

theorem foldl_topicStep_lookup : ∀ (ls : List String) (t : List (Nat × String)) (n : Nat),
    dictLookup (ls.foldl topicStep t) n =
      ls.foldl (fun acc l =>
        match topicMatch l with
        | some p => if p.1 == n then some p.2 else acc
        | none => acc) (dictLookup t n)
  | [], t, n => rfl
  | l :: ls, t, n => by
    simp only [List.foldl_cons]
    rw [foldl_topicStep_lookup ls (topicStep t l) n, dictLookup_topicStep]

theorem dictInsert_keys_nodup {α : Type} {d : List (Nat × α)}
    (h : (d.map Prod.fst).Nodup) (k : Nat) (v : α) :
    ((dictInsert d k v).map Prod.fst).Nodup := by
  unfold dictInsert
  by_cases hany : (d.any fun p => p.1 == k) = true
  · rw [if_pos hany]
    have hkeys : (d.map (fun p => if p.1 == k then (k, v) else p)).map Prod.fst =
        d.map Prod.fst := by
      rw [List.map_map]
      apply List.map_congr_left
      intro p hp
      by_cases hpk : (p.1 == k) = true
      · have : p.1 = k := by simpa using hpk
        simp [hpk, this]
      · have : ¬(p.1 = k) := by simpa using hpk
        simp [this]
    rw [hkeys]
    exact h
  · rw [if_neg hany, List.map_append]
    refine List.Nodup.append h (List.nodup_singleton k) ?_
    intro a ha hb
    rw [List.map_singleton, List.mem_singleton] at hb
    subst hb
    obtain ⟨p, hp, hpa⟩ := List.mem_map.mp ha
    exact hany (List.any_eq_true.mpr ⟨p, hp, by simp [hpa]⟩)

theorem foldl_topicStep_keys_nodup : ∀ (ls : List String) (t : List (Nat × String)),
    (t.map Prod.fst).Nodup → ((ls.foldl topicStep t).map Prod.fst).Nodup
  | [], t, h => h
  | l :: ls, t, h => by
    simp only [List.foldl_cons]
    apply foldl_topicStep_keys_nodup ls (topicStep t l)
    unfold topicStep
    rcases topicMatch l with _ | ⟨n, subj⟩
    · exact h
    · exact dictInsert_keys_nodup h n subj

theorem assoc_filter_length_le_one {α : Type} :
    ∀ (d : List (Nat × α)), (d.map Prod.fst).Nodup →
      ∀ n, (d.filter (fun p => p.1 == n)).length ≤ 1
  | [], _, n => by simp
  | p :: t, h, n => by
    rw [List.map_cons, List.nodup_cons] at h
    rw [List.filter_cons]
    by_cases hp : (p.1 == n) = true
    · rw [if_pos hp]
      have hfil : t.filter (fun q => q.1 == n) = [] := by
        rw [List.filter_eq_nil_iff]
        intro q hq hqn
        have hqn2 : q.1 = n := by simpa using hqn
        have hpn : p.1 = n := by simpa using hp
        exact h.1 (hpn ▸ hqn2 ▸ List.mem_map_of_mem Prod.fst hq)
      rw [hfil]
      simp
    · rw [if_neg hp]
      exact assoc_filter_length_le_one t h.2 n

/-- C10: within one block, a later topic declaration with an already seen
topic number silently overwrites the earlier subject: the parsed topics
dict has no duplicate topic numbers, each number maps to the subject of
its last declaration in scan order, and at most one report row is emitted
per topic number of the message. -/
theorem c10_duplicate_topic_overwrite (block : String) (m : Message)
    (h : parseMessageBlock block = some m) :
    (m.topics.map Prod.fst).Nodup ∧
    (∀ n, dictLookup m.topics n = lastTopicSubject n ((pyLines block).drop 2)) ∧
    (∀ n, ((rowsOfMessage m).filter (fun r => r.topic_number == n)).length ≤ 1) := by
  unfold parseMessageBlock at h
  rcases hb : pyLines block with _ | ⟨l0, _ | ⟨l1, rest⟩⟩ <;> rw [hb] at h
  · simp at h
  · simp at h
  · simp only [Option.some.injEq] at h
    subst h
    have htopics : (scanLines rest [] []).1 = rest.foldl topicStep [] :=
      scanLines_topics_foldl rest [] []
    refine ⟨?_, ?_, ?_⟩
    · simp only [htopics]
      exact foldl_topicStep_keys_nodup rest [] (by simp)
    · intro n
      simp only [htopics, List.drop_succ_cons, List.drop_zero]
      rw [foldl_topicStep_lookup]
      rfl
    · intro n
      have hnd : (((scanLines rest [] []).1).map Prod.fst).Nodup := by
        rw [htopics]
        exact foldl_topicStep_keys_nodup rest [] (by simp)
      unfold rowsOfMessage
      rw [List.filter_map]
      rw [List.length_map]
      exact assoc_filter_length_le_one _ hnd n

theorem c10_duplicate_topic_overwrite_witness :
    ((Message.topics ⟨"A", "Unknown", [(1, "Y")], []⟩).map Prod.fst).Nodup ∧
    (∀ n, dictLookup (Message.topics ⟨"A", "Unknown", [(1, "Y")], []⟩) n =
        lastTopicSubject n ((pyLines "A\nB\n1-X\n1-Y").drop 2)) ∧
    (∀ n, ((rowsOfMessage ⟨"A", "Unknown", [(1, "Y")], []⟩).filter
        (fun r => r.topic_number == n)).length ≤ 1) :=
  c10_duplicate_topic_overwrite "A\nB\n1-X\n1-Y" ⟨"A", "Unknown", [(1, "Y")], []⟩ rfl

theorem rowsOfMessage_eq_map (m : Message) :
    rowsOfMessage m = m.topics.map (rowOf m) := rfl

theorem rowOf_injective (m : Message) : Function.Injective (rowOf m) := by
  intro p q h
  unfold rowOf at h
  have h1 : p.1 = q.1 := congrArg Topic.topic_number h
  have h2 : p.2 = q.2 := congrArg Topic.subject h
  exact Prod.ext h1 h2

/-- C1: for a message whose topics dict has no duplicate keys (as the
parser guarantees), the report holds exactly one row per `(topic_number,
subject)` entry, with `creator_name` the message author and `votes` the
`get`-with-default-0 of the votes dict; every row arises from a topics
entry, so a number present only in the votes dict yields no row. -/
theorem c1_rows_from_topics (m : Message) (hnd : (m.topics.map Prod.fst).Nodup) :
    (∀ p ∈ m.topics,
        (rowsOfMessage m).count
            (⟨m.author, p.1, p.2, dictGetD m.votes p.1 0⟩ : Topic) = 1 ∧
        (processMessages [m]).count
            (⟨m.author, p.1, p.2, dictGetD m.votes p.1 0⟩ : Topic) = 1) ∧
    (∀ r ∈ rowsOfMessage m,
        r.creator_name = m.author ∧ (r.topic_number, r.subject) ∈ m.topics ∧
        r.votes = dictGetD m.votes r.topic_number 0) ∧
    (∀ n, n ∉ m.topics.map Prod.fst →
        ∀ r ∈ rowsOfMessage m, r.topic_number ≠ n) := by
  have hnodup : m.topics.Nodup := List.Nodup.of_map Prod.fst hnd
  refine ⟨?_, ?_, ?_⟩
  · intro p hp
    have hcount : (rowsOfMessage m).count (rowOf m p) = 1 := by
      rw [rowsOfMessage_eq_map]
      rw [List.count_map_of_injective m.topics (rowOf m) (rowOf_injective m) p]
      exact List.count_eq_one_of_mem hnodup hp
    refine ⟨hcount, ?_⟩
    have hperm : List.Perm (processMessages [m]) (rowsOfMessage m) := by
      have : allTopicsOf [m] = rowsOfMessage m := by
        simp [allTopicsOf]
      unfold processMessages
      rw [this]
      exact List.mergeSort_perm (rowsOfMessage m) topicKeyLE
    rw [hperm.count_eq]
    exact hcount
  · intro r hr
    rw [rowsOfMessage_eq_map] at hr
    obtain ⟨p, hp, rfl⟩ := List.mem_map.mp hr
    exact ⟨rfl, hp, rfl⟩
  · intro n hn r hr
    rw [rowsOfMessage_eq_map] at hr
    obtain ⟨p, hp, rfl⟩ := List.mem_map.mp hr
    intro hcontra
    exact hn (hcontra ▸ List.mem_map_of_mem Prod.fst hp)

theorem c1_rows_from_topics_witness :
    (rowsOfMessage ⟨"A", "T", [(1, "x")], [(2, 5)]⟩).count ⟨"A", 1, "x", 0⟩ = 1 ∧
    (processMessages [⟨"A", "T", [(1, "x")], [(2, 5)]⟩]).count ⟨"A", 1, "x", 0⟩ = 1 :=
  (c1_rows_from_topics ⟨"A", "T", [(1, "x")], [(2, 5)]⟩ (by decide)).1 (1, "x")
    (by decide)

theorem topicKeyLE_trans (a b c : Topic) (h1 : topicKeyLE a b) (h2 : topicKeyLE b c) :
    topicKeyLE a c := by
  unfold topicKeyLE at h1 h2 ⊢
  rw [decide_eq_true_eq] at h1 h2 ⊢
  rcases h1 with h1 | ⟨h1v, h1n⟩ <;> rcases h2 with h2 | ⟨h2v, h2n⟩
  · exact Or.inl (h2.trans h1)
  · exact Or.inl (h2v ▸ h1)
  · exact Or.inl (h1v ▸ h2)
  · exact Or.inr ⟨h1v.trans h2v, h1n.trans h2n⟩

theorem topicKeyLE_total (a b : Topic) : topicKeyLE a b || topicKeyLE b a := by
  unfold topicKeyLE
  rw [Bool.or_eq_true, decide_eq_true_eq, decide_eq_true_eq]
  rcases lt_trichotomy a.votes b.votes with h | h | h
  · exact Or.inr (Or.inl h)
  · rcases le_total a.creator_name b.creator_name with hn | hn
    · exact Or.inl (Or.inr ⟨h, hn⟩)
    · exact Or.inr (Or.inr ⟨h.symm, hn⟩)
  · exact Or.inl (Or.inl h)

/-- C3: the report is sorted by descending votes with ascending author
name as tie-break, it is a permutation of the pre-sort rows, and the sort
is stable: rows agreeing on both sort keys keep their original relative
order (their filtered subsequence is unchanged). -/
theorem c3_sorted_and_stable (msgs : List Message) :
    (processMessages msgs).Pairwise (fun a b => topicKeyLE a b = true) ∧
    (processMessages msgs).Pairwise (fun a b =>
        b.votes ≤ a.votes ∧ (a.votes = b.votes → a.creator_name ≤ b.creator_name)) ∧
    List.Perm (processMessages msgs) (allTopicsOf msgs) ∧
    (∀ (v : Int) (nm : String),
        (processMessages msgs).filter
            (fun r => r.votes == v && r.creator_name == nm) =
          (allTopicsOf msgs).filter
            (fun r => r.votes == v && r.creator_name == nm)) := by
  have hp1 : (processMessages msgs).Pairwise (fun a b => topicKeyLE a b = true) :=
    List.sorted_mergeSort topicKeyLE_trans topicKeyLE_total (allTopicsOf msgs)
  have hperm : List.Perm (processMessages msgs) (allTopicsOf msgs) :=
    List.mergeSort_perm (allTopicsOf msgs) topicKeyLE
  refine ⟨hp1, ?_, hperm, ?_⟩
  · refine hp1.imp ?_
    intro a b hab
    rw [topicKeyLE, decide_eq_true_eq] at hab
    rcases hab with h | ⟨hv, hn⟩
    · exact ⟨le_of_lt h, fun he => absurd (he ▸ h) (lt_irrefl _)⟩
    · exact ⟨le_of_eq hv.symm, fun _ => hn⟩
  · intro v nm
    set p : Topic → Bool := fun r => r.votes == v && r.creator_name == nm with hp
    have hmemp : ∀ r, p r = true → r.votes = v ∧ r.creator_name = nm := by
      intro r hr
      rw [hp] at hr
      simp only [Bool.and_eq_true, beq_iff_eq] at hr
      exact hr
    have hcpair : ((allTopicsOf msgs).filter p).Pairwise
        (fun a b => topicKeyLE a b = true) := by
      apply List.pairwise_of_forall_mem_list
      intro a ha b hb
      obtain ⟨hav, han⟩ := hmemp a (List.of_mem_filter ha)
      obtain ⟨hbv, hbn⟩ := hmemp b (List.of_mem_filter hb)
      rw [topicKeyLE, decide_eq_true_eq]
      exact Or.inr ⟨hav.trans hbv.symm, (han.trans hbn.symm).le⟩
    have hstab : List.Sublist ((allTopicsOf msgs).filter p) (processMessages msgs) :=
      List.sublist_mergeSort topicKeyLE_trans topicKeyLE_total hcpair
        (List.filter_sublist (allTopicsOf msgs))
    have hsub2 : List.Sublist ((allTopicsOf msgs).filter p)
        ((processMessages msgs).filter p) := by
      have hself : ((allTopicsOf msgs).filter p).filter p = (allTopicsOf msgs).filter p :=
        List.filter_eq_self.mpr (fun a ha => List.of_mem_filter ha)
      rw [← hself]
      exact List.Sublist.filter p hstab
    have hlen : ((processMessages msgs).filter p).length =
        ((allTopicsOf msgs).filter p).length :=
      (hperm.filter p).length_eq
    exact (hsub2.eq_of_length hlen.symm).symm

theorem specTopicDecl_mem {s : String} (h : specTopicDecl s) : '-' ∈ s.data := by
  obtain ⟨ds, rest, hdata, -, -⟩ := h
  rw [hdata]
  exact List.mem_append_right ds (List.mem_cons_self '-' rest)

theorem specVoteMarker_head {s : String} (h : specVoteMarker s) :
    s.data.head? = some ':' := by
  obtain ⟨ds, rest, hdata, -, -⟩ := h
  rw [hdata]
  rfl

theorem specTimePat_mem {s : String} (h : specTimePat s) : 'M' ∈ s.data := by
  obtain ⟨hh, mm, w, ap, rest, hdata, -, -, -, -, -, hap⟩ := h
  rcases hap with rfl | rfl <;> simp [hdata]

/-- C2 counterexample: the line `"5:00"` matches none of the claim's three
patterns and is not purely digits, so by the claim it must start a new
group after a non-empty group; but the code's first regex `^\d+[-:]`
matches it, so the segmenter appends it to the current block. -/
theorem c2_counterexample :
    specNewGroupLine "5:00" ∧ isNewGroupLine "5:00" = false ∧
    splitIntoMessageBlocks "Alice\n5:00" = ["Alice\n5:00"] := by
  refine ⟨⟨?_, ?_, ?_, by decide⟩, by decide, by decide⟩
  · intro h
    exact absurd (specTopicDecl_mem h) (by decide)
  · intro h
    exact absurd (specVoteMarker_head h) (by decide)
  · intro h
    exact absurd (specTimePat_mem h) (by decide)

theorem digit_not_dash {c : Char} (h : c = '-' ∨ c = ':') : c.isDigit = false := by
  rcases h with rfl | rfl <;> decide

theorem looksTopicLine_iff (s : String) :
    looksTopicLine s = true ↔ amendedTopicDecl s := by
  constructor
  · intro h
    unfold looksTopicLine at h
    simp only [Bool.and_eq_true, Bool.or_eq_true, decide_eq_true_eq] at h
    obtain ⟨h1, h2⟩ := h
    rcases hd : s.data.dropWhile Char.isDigit with _ | ⟨c, tail⟩
    · rw [hd] at h2
      simp at h2
    · rw [hd] at h2
      simp only [List.head?_cons, Option.some.injEq] at h2
      refine ⟨s.data.takeWhile Char.isDigit, c, tail, ?_, h1, ?_, h2⟩
      · rw [← hd, List.takeWhile_append_dropWhile]
      · intro d hd2
        exact mem_of_takeWhile hd2
  · rintro ⟨ds, c, rest, hdata, hne, hdig, hc⟩
    have hcd : Char.isDigit c = false := digit_not_dash hc
    have ht : s.data.takeWhile Char.isDigit = ds := by
      rw [hdata, takeWhile_append_all (c :: rest) hdig,
        List.takeWhile_cons_of_neg (by simp [hcd]), List.append_nil]
    have hdw : s.data.dropWhile Char.isDigit = c :: rest := by
      rw [hdata, dropWhile_append_all (c :: rest) hdig,
        List.dropWhile_cons_of_neg (by simp [hcd])]
    unfold looksTopicLine
    rcases hc with rfl | rfl <;> simp [ht, hdw, hne]

theorem looksVoteLine_iff (s : String) :
    looksVoteLine s = true ↔ specVoteMarker s := by
  constructor
  · intro h
    unfold looksVoteLine at h
    simp only [Bool.and_eq_true, decide_eq_true_eq] at h
    obtain ⟨⟨h1, h2⟩, h3⟩ := h
    rcases hd : s.data with _ | ⟨c0, rest0⟩
    · rw [hd] at h1
      simp at h1
    · rw [hd] at h1 h2 h3
      simp only [List.head?_cons, Option.some.injEq] at h1
      subst h1
      simp only [List.drop_succ_cons, List.drop_zero] at h2 h3
      rcases hdw : rest0.dropWhile Char.isDigit with _ | ⟨c1, tail⟩
      · rw [hdw] at h3
        simp at h3
      · rw [hdw] at h3
        simp only [List.head?_cons, Option.some.injEq] at h3
        subst h3
        refine ⟨rest0.takeWhile Char.isDigit, tail, ?_, h2, ?_⟩
        · rw [hd, ← hdw, List.takeWhile_append_dropWhile]
        · intro d hd2
          exact mem_of_takeWhile hd2
  · rintro ⟨ds, rest, hdata, hne, hdig⟩
    have hh : s.data.head? = some ':' := by rw [hdata]; rfl
    have hdrop : s.data.drop 1 = ds ++ ':' :: rest := by
      rw [hdata]
      simp
    have ht : (s.data.drop 1).takeWhile Char.isDigit = ds := by
      rw [hdrop, takeWhile_append_all (':' :: rest) hdig,
        List.takeWhile_cons_of_neg (by decide), List.append_nil]
    have hdw : (s.data.drop 1).dropWhile Char.isDigit = ':' :: rest := by
      rw [hdrop, dropWhile_append_all (':' :: rest) hdig,
        List.dropWhile_cons_of_neg (by decide)]
    unfold looksVoteLine
    rw [hh, ht, hdw]
    simp [hne]

theorem timestampGroup_cons2 {c1 c2 : Char} {cs : List Char} {s : String}
    (hd : s.data = c1 :: c2 :: cs) :
    timestampGroup s =
      if c1.isDigit ∧ c2 = ':' then
        (timeTail cs).map (fun t => ⟨c1 :: ':' :: t⟩)
      else if c1.isDigit ∧ c2.isDigit ∧ cs.head? = some ':' then
        (timeTail cs.tail).map (fun t => ⟨c1 :: c2 :: ':' :: t⟩)
      else none := by
  unfold timestampGroup
  rw [hd]

theorem timeTail_some_decomp {cs t : List Char} (h : timeTail cs = some t) :
    ∃ m1 m2 w ap rest2, cs = m1 :: m2 :: (w ++ (ap ++ rest2)) ∧
      m1.isDigit = true ∧ m2.isDigit = true ∧ (∀ c ∈ w, pySpace c = true) ∧
      (ap = ['A', 'M'] ∨ ap = ['P', 'M']) := by
  rcases cs with _ | ⟨m1, _ | ⟨m2, rest⟩⟩
  · simp [timeTail] at h
  · simp [timeTail] at h
  · simp only [timeTail] at h
    split at h
    · rename_i hc
      obtain ⟨h1, h2, h3⟩ := hc
      refine ⟨m1, m2, rest.takeWhile pySpace, (rest.dropWhile pySpace).take 2,
        (rest.dropWhile pySpace).drop 2, ?_, h1, h2, ?_, h3⟩
      · have hrec : (rest.dropWhile pySpace).take 2 ++ (rest.dropWhile pySpace).drop 2 =
            rest.dropWhile pySpace := List.take_append_drop 2 _
        rw [hrec, List.takeWhile_append_dropWhile]
      · intro c hcw
        exact mem_of_takeWhile hcw
    · simp at h

theorem timeTail_of_decomp {m1 m2 : Char} {w ap rest : List Char}
    (h1 : m1.isDigit = true) (h2 : m2.isDigit = true)
    (hw : ∀ c ∈ w, pySpace c = true) (hap : ap = ['A', 'M'] ∨ ap = ['P', 'M']) :
    (timeTail (m1 :: m2 :: (w ++ (ap ++ rest)))).isSome = true := by
  have hdw : (w ++ (ap ++ rest)).dropWhile pySpace = ap ++ rest := by
    rw [dropWhile_append_all (ap ++ rest) hw]
    rcases hap with rfl | rfl <;>
      exact List.dropWhile_cons_of_neg (by decide)
  have htake : ((w ++ (ap ++ rest)).dropWhile pySpace).take 2 = ap := by
    rw [hdw]
    refine List.take_left' ?_
    rcases hap with rfl | rfl <;> rfl
  have hcond : m1.isDigit = true ∧ m2.isDigit = true ∧
      (((w ++ (ap ++ rest)).dropWhile pySpace).take 2 = ['A', 'M'] ∨
       ((w ++ (ap ++ rest)).dropWhile pySpace).take 2 = ['P', 'M']) := by
    refine ⟨h1, h2, ?_⟩
    rw [htake]
    exact hap
  simp only [timeTail]
  rw [if_pos hcond]
  rfl

theorem looksTimeLine_iff (s : String) :
    looksTimeLine s = true ↔ specTimePat s := by
  unfold looksTimeLine
  constructor
  · intro h
    rw [Option.isSome_iff_exists] at h
    obtain ⟨t, ht⟩ := h
    rcases hd : s.data with _ | ⟨c1, _ | ⟨c2, cs⟩⟩
    · unfold timestampGroup at ht
      rw [hd] at ht
      simp at ht
    · unfold timestampGroup at ht
      rw [hd] at ht
      simp at ht
    · rw [timestampGroup_cons2 hd] at ht
      split at ht
      · rename_i h1
        obtain ⟨tt, htt, -⟩ := Option.map_eq_some'.mp ht
        obtain ⟨m1, m2, w, ap, rest2, hcs, hm1, hm2, hw, hap⟩ :=
          timeTail_some_decomp htt
        refine ⟨[c1], [m1, m2], w, ap, rest2, ?_, Or.inl rfl, ?_, rfl, ?_, hw, hap⟩
        · rw [hd, hcs, h1.2]
          rfl
        · intro d hd2
          rw [List.mem_singleton] at hd2
          rw [hd2]
          exact h1.1
        · intro d hd2
          rcases List.mem_cons.mp hd2 with rfl | hd3
          · exact hm1
          · rw [List.mem_singleton] at hd3
            rw [hd3]
            exact hm2
      · split at ht
        · rename_i h2
          obtain ⟨tt, htt, -⟩ := Option.map_eq_some'.mp ht
          obtain ⟨m1, m2, w, ap, rest2, hcs, hm1, hm2, hw, hap⟩ :=
            timeTail_some_decomp htt
          rcases hcs0 : cs with _ | ⟨c3, cs1⟩
          · rw [hcs0] at h2
            simp at h2
          · rw [hcs0] at h2
            obtain ⟨hd1, hd2c, hd3⟩ := h2
            simp only [List.head?_cons, Option.some.injEq] at hd3
            subst hd3
            rw [hcs0] at hcs
            simp only [List.tail_cons] at hcs
            refine ⟨[c1, c2], [m1, m2], w, ap, rest2, ?_, Or.inr rfl, ?_, rfl, ?_,
              hw, hap⟩
            · rw [hd, hcs0, hcs]
              rfl
            · intro d hd4
              rcases List.mem_cons.mp hd4 with rfl | hd5
              · exact hd1
              · rw [List.mem_singleton] at hd5
                rw [hd5]
                exact hd2c
            · intro d hd4
              rcases List.mem_cons.mp hd4 with rfl | hd5
              · exact hm1
              · rw [List.mem_singleton] at hd5
                rw [hd5]
                exact hm2
        · simp at ht
  · rintro ⟨hh, mm, w, ap, rest, hdata, hlen, hhdig, hmmlen, hmmdig, hw, hap⟩
    rcases mm with _ | ⟨m1, _ | ⟨m2, _ | ⟨mx, mt⟩⟩⟩ <;> simp at hmmlen
    have hm1 : m1.isDigit = true := hmmdig m1 (by simp)
    have hm2 : m2.isDigit = true := hmmdig m2 (by simp)
    rcases hlen with hlen | hlen
    · rcases hh with _ | ⟨d1, _ | ⟨dx, dt⟩⟩ <;> simp at hlen
      have hd1 : d1.isDigit = true := hhdig d1 (by simp)
      have hd : s.data = d1 :: ':' :: (m1 :: m2 :: (w ++ (ap ++ rest))) := by
        rw [hdata]
        rfl
      rw [timestampGroup_cons2 hd, if_pos ⟨hd1, rfl⟩, Option.isSome_map']
      exact timeTail_of_decomp hm1 hm2 hw hap
    · rcases hh with _ | ⟨d1, _ | ⟨d2, _ | ⟨dx, dt⟩⟩⟩ <;> simp at hlen
      have hd1 : d1.isDigit = true := hhdig d1 (by simp)
      have hd2 : d2.isDigit = true := hhdig d2 (by simp)
      have hd : s.data = d1 :: d2 :: (':' :: (m1 :: m2 :: (w ++ (ap ++ rest)))) := by
        rw [hdata]
        rfl
      rw [timestampGroup_cons2 hd,
        if_neg (fun hcon => absurd hd2 (by rw [hcon.2]; decide)),
        if_pos ⟨hd1, hd2, rfl⟩, Option.isSome_map']
      simp only [List.tail_cons]
      exact timeTail_of_decomp hm1 hm2 hw hap

/-- C2 amended: a line starts a new group iff the current group is
non-empty AND the line does not begin with digits followed by a hyphen or
colon (the code's `^\d+[-:]`, wider than the claimed `<digits>-<text>`),
does not begin with `:<digits>:`, does not begin with the timestamp
pattern, and is not composed purely of digits. -/
theorem c2_amended_new_group_rule (line : String) :
    (isNewGroupLine line = true ↔ amendedNewGroupLine line) ∧
    (∀ (cur rest : List String),
        splitBlocksAux cur (line :: rest) =
          if cur ≠ [] ∧ isNewGroupLine line then cur :: splitBlocksAux [line] rest
          else splitBlocksAux (cur ++ [line]) rest) := by
  constructor
  · unfold isNewGroupLine amendedNewGroupLine
    constructor
    · intro h
      simp only [Bool.and_eq_true, Bool.not_eq_true'] at h
      obtain ⟨⟨⟨hA, hB⟩, hC⟩, hD⟩ := h
      refine ⟨?_, ?_, ?_, hD⟩
      · intro hcon
        have := (looksTopicLine_iff line).mpr hcon
        rw [hA] at this
        exact Bool.false_ne_true this
      · intro hcon
        have := (looksVoteLine_iff line).mpr hcon
        rw [hB] at this
        exact Bool.false_ne_true this
      · intro hcon
        have := (looksTimeLine_iff line).mpr hcon
        rw [hC] at this
        exact Bool.false_ne_true this
    · rintro ⟨hA, hB, hC, hD⟩
      simp only [Bool.and_eq_true, Bool.not_eq_true']
      refine ⟨⟨⟨?_, ?_⟩, ?_⟩, hD⟩
      · exact Bool.eq_false_iff.mpr (fun hb => hA ((looksTopicLine_iff line).mp hb))
      · exact Bool.eq_false_iff.mpr (fun hb => hB ((looksVoteLine_iff line).mp hb))
      · exact Bool.eq_false_iff.mpr (fun hb => hC ((looksTimeLine_iff line).mp hb))
  · intro cur rest
    rw [splitBlocksAux.eq_def]
